import Mathlib

/-!
Shallow embedding of `custom_components/ha_strava/camera.py` (class `UrlCam`).

The camera keeps a Python dict `self._urls`, keyed by the md5 hexdigest of an
image URL, mapping to the image descriptor `{url, date, ...metadata}`.
We model the dict as an association list `List (String × ImgDesc)` whose order
is the dict insertion/iteration order, the md5 hexdigest as an abstract key
function `hash : String → String` (injectivity is hypothesised where a claim
needs it), and the network (`requests.get`) as an oracle
`fetch : String → HttpResponse`.

Python specifics modelled explicitly:
* dict assignment `d[k] = v` keeps the position of an existing key and appends
  a fresh key at the end (`dictInsert`);
* `sorted(items, key=lambda k_v: k_v[1]["date"])` is a stable ascending sort
  by date; a stable sort is uniquely determined by its comparison key, so we
  use a structurally recursive stable insertion sort (`sortByDate`), which
  inserts each element after all elements of smaller-or-equal date;
* the slice `l[-n:]` keeps the last `n` elements, except that `l[-0:]` is the
  whole list (`pyTakeLast`);
* a read that would raise `IndexError` (list index out of range) is modelled
  as `none`.
-/

namespace HaStrava

/-- A `requests.get` response: status code and body bytes. -/
structure HttpResponse where
  statusCode : Nat
  content : List Nat
deriving Repr, DecidableEq

/-- One image descriptor from the update event payload: `{url, date, ...}`.
`meta` stands for the opaque passthrough metadata fields. -/
structure ImgDesc where
  url : String
  date : Int
  meta : String
deriving Repr, DecidableEq

/-- The `self._urls` dict: association list in dict iteration order. -/
abbrev Gallery := List (String × ImgDesc)

/-- The mutable state of `UrlCam`: `self._urls` and `self._url_index`. -/
structure CamState where
  urls : Gallery
  urlIndex : Nat
deriving Repr, DecidableEq

/-- `self._default_url`, the fixed fallback image URL. -/
def defaultUrl : String :=
  "https://upload.wikimedia.org/wikipedia/commons/thumb/1/15/No_image_available_600_x_450.svg/1280px-No_image_available_600_x_450.svg.png"

/-- Python dict assignment `d[k] = v`: an existing key keeps its position and
gets the new value; a fresh key is appended at the end. -/
def dictInsert (k : String) (v : ImgDesc) (g : Gallery) : Gallery :=
  if g.any (fun p => decide (p.1 = k)) then
    g.map (fun p => if p.1 = k then (k, v) else p)
  else g ++ [(k, v)]

/-- Stable insertion into a date-sorted list: the new element goes after every
element whose date is `≤` its own, hence after equal dates (stability). -/
def insertByDate (x : String × ImgDesc) : Gallery → Gallery
  | [] => [x]
  | y :: l => if y.2.date ≤ x.2.date then y :: insertByDate x l else x :: y :: l

/-- Model of `sorted(self._urls.items(), key=lambda k_v: k_v[1]["date"])`:
a stable ascending sort by `date`. -/
def sortByDate (g : Gallery) : Gallery :=
  g.foldl (fun acc x => insertByDate x acc) []

/-- Python slice `l[-n:]`: the last `n` elements, except `l[-0:]` is all of `l`. -/
def pyTakeLast (n : Nat) (l : Gallery) : Gallery :=
  if n = 0 then l else l.drop (l.length - n)

/-- `UrlCam.is_url_valid`: the URL is valid iff fetching it returns status 200. -/
def is_url_valid (fetch : String → HttpResponse) (url : String) : Bool :=
  decide ((fetch url).statusCode = 200)

/-- The upsert loop of `UrlCam.img_update_handler`: every descriptor whose URL
validates is written into the dict keyed by the hash of its URL. -/
def upsertBatch (hash : String → String) (fetch : String → HttpResponse)
    (batch : List ImgDesc) (g : Gallery) : Gallery :=
  batch.foldl (fun g d => if is_url_valid fetch d.url then dictInsert (hash d.url) d g else g) g

/-- `UrlCam.img_update_handler`: upsert the accepted descriptors, then re-sort
the dict ascending by date and truncate to the last `maxImages` entries.
(The pickle write is a side effect outside the state modelled here.) -/
def img_update_handler (hash : String → String) (fetch : String → HttpResponse)
    (maxImages : Nat) (batch : List ImgDesc) (s : CamState) : CamState :=
  { s with urls := pyTakeLast maxImages (sortByDate (upsertBatch hash fetch batch s.urls)) }

/-- `UrlCam.rotate_img`: no-op on an empty dict, otherwise advance the index
modulo the dict size. The returned `Bool` records whether
`async_write_ha_state` (the state-change notification) was called. -/
def rotate_img (s : CamState) : CamState × Bool :=
  if s.urls.length = 0 then (s, false)
  else ({ s with urlIndex := (s.urlIndex + 1) % s.urls.length }, true)

/-- `list(d.keys())[i]`: the `i`-th key of the dict, `none` on `IndexError`. -/
def keyAt (g : Gallery) (i : Nat) : Option String :=
  (g.map Prod.fst).get? i

/-- Python dict lookup `d[k]`. -/
def dictGet (g : Gallery) (k : String) : Option ImgDesc :=
  (g.find? (fun p => decide (p.1 = k))).map Prod.snd

/-- The `UrlCam.state` property: the default URL when the index equals the
dict size, otherwise the `url` field of the entry at the index-th key. -/
def camera_state (s : CamState) : Option String :=
  if s.urls.length = s.urlIndex then some defaultUrl
  else match keyAt s.urls s.urlIndex with
       | none => none
       | some k => (dictGet s.urls k).map ImgDesc.url

/-- The `img_url` value of `UrlCam.extra_state_attributes`: same selection
logic as `UrlCam.state`. -/
def extra_state_attributes (s : CamState) : Option String :=
  if s.urls.length = s.urlIndex then some defaultUrl
  else match keyAt s.urls s.urlIndex with
       | none => none
       | some k => (dictGet s.urls k).map ImgDesc.url

/-- `UrlCam._return_default_img`: fetch the default URL and return its body
(whatever the status code). -/
def return_default_img (fetch : String → HttpResponse) : List Nat :=
  (fetch defaultUrl).content

/-- `UrlCam.camera_image`: default image bytes when the index equals the dict
size; otherwise fetch the current entry's URL, returning its body on status
200 and the default image bytes otherwise. `none` models an uncaught
`IndexError`. -/
def camera_image (fetch : String → HttpResponse) (s : CamState) : Option (List Nat) :=
  if s.urls.length = s.urlIndex then some (return_default_img fetch)
  else match keyAt s.urls s.urlIndex with
    | none => none
    | some k =>
      match dictGet s.urls k with
      | none => none
      | some d =>
        if (fetch d.url).statusCode = 200 then some (fetch d.url).content
        else some (return_default_img fetch)

/-- States reachable from the initial state (empty dict, index 0, as built
when no pickle file exists) by the entity's two mutating callbacks: the timer
rotation and the image-update event handler (each event with its own network
oracle). `N` is the `CONF_MAX_NB_IMAGES` constant, fixed for the lifetime. -/
inductive Reachable (hash : String → String) (N : Nat) : CamState → Prop where
  | init : Reachable hash N ⟨[], 0⟩
  | rotate {s : CamState} : Reachable hash N s → Reachable hash N (rotate_img s).1
  | ingest {s : CamState} (fetch : String → HttpResponse) (batch : List ImgDesc) :
      Reachable hash N s → Reachable hash N (img_update_handler hash fetch N batch s)

/-- The sorting relation of the handler: ascending by `date`. -/
def dLe (a b : String × ImgDesc) : Prop := a.2.date ≤ b.2.date

/-- Modelled from the spec: `CONF_MAX_NB_IMAGES` lives in `const.py`, which is
not part of the embedded source; the class docstring fixes the bound as
"Up to 100 URLs are stored in the Camera object". -/
def CONF_MAX_NB_IMAGES : Nat := 100

/-- Test oracle: every URL answers 200. -/
def fetchOk : String → HttpResponse := fun _ => ⟨200, [1]⟩

/-- Test descriptor with date 1. -/
def dA : ImgDesc := ⟨"a", 1, "ma"⟩

/-- Test descriptor with date 2. -/
def dB : ImgDesc := ⟨"b", 2, "mb"⟩

/-- Test descriptor with date 3. -/
def dC : ImgDesc := ⟨"c", 3, "mc"⟩

/-- A three-entry gallery in ascending date order. -/
def g3 : Gallery := [("a", dA), ("b", dB), ("c", dC)]

/-- Same URL as `dA` but different metadata, for re-ingestion tests. -/
def dA2 : ImgDesc := ⟨"a", 1, "m2"⟩

/-- A descriptor whose URL the failing oracle rejects. -/
def dBad : ImgDesc := ⟨"bad", 5, "mx"⟩

/-- Test oracle: URL "bad" answers 404, everything else 200. -/
def fetchBadA : String → HttpResponse := fun u => if u = "bad" then ⟨404, []⟩ else ⟨200, [1]⟩

/-- Test oracle: every URL answers 404 (with a body). -/
def fetch404 : String → HttpResponse := fun _ => ⟨404, [0]⟩

/-- The state after ingesting `[dA, dB, dC]` into an empty camera with max 2:
gallery `[("b", dB), ("c", dC)]`, pointer 0. -/
def sWit : CamState := img_update_handler id fetchOk 2 [dA, dB, dC] ⟨[], 0⟩

/-- A gallery already filled with `CONF_MAX_NB_IMAGES` entries, all with dates
newer than the test descriptors. -/
def gFull : Gallery :=
  (List.range CONF_MAX_NB_IMAGES).map
    (fun i => (toString (i + 1000), ⟨toString (i + 1000), (1000 : Int) + i, ""⟩))

/-- A camera state whose gallery is full of newer entries. -/
def sFull : CamState := ⟨gFull, 0⟩

/-- A batch of `CONF_MAX_NB_IMAGES + 1` distinct valid descriptors with
ascending dates. -/
def batch101 : List ImgDesc :=
  (List.range (CONF_MAX_NB_IMAGES + 1)).map
    (fun i => ⟨String.append "u" (toString i), (i : Int), ""⟩)

/-- Number of entries of the dict carrying a given key. -/
def keyCount (g : Gallery) (k : String) : Nat :=
  (g.filter (fun p => decide (p.1 = k))).length

theorem insertByDate_perm (x : String × ImgDesc) (g : Gallery) :
    List.Perm (insertByDate x g) (x :: g) := by
  induction g with
  | nil => simp [insertByDate]
  | cons y l ih =>
    by_cases h : y.2.date ≤ x.2.date
    · simp only [insertByDate, if_pos h]
      exact (ih.cons y).trans (List.Perm.swap x y l)
    · simp [insertByDate, if_neg h]

theorem sortByDate_foldl_perm (g : Gallery) : ∀ acc : Gallery,
    List.Perm (g.foldl (fun a x => insertByDate x a) acc) (acc ++ g) := by
  induction g with
  | nil => intro acc; simp
  | cons x l ih =>
    intro acc
    simp only [List.foldl_cons]
    refine (ih (insertByDate x acc)).trans ?_
    refine ((insertByDate_perm x acc).append_right l).trans ?_
    simpa using (@List.perm_middle _ x acc l).symm

theorem sortByDate_perm (g : Gallery) : List.Perm (sortByDate g) g := by
  simpa using sortByDate_foldl_perm g []

theorem mem_insertByDate {a x : String × ImgDesc} {g : Gallery} :
    a ∈ insertByDate x g ↔ a = x ∨ a ∈ g := by
  simpa using (insertByDate_perm x g).mem_iff

theorem pairwise_insertByDate {x : String × ImgDesc} {g : Gallery}
    (h : g.Pairwise dLe) : (insertByDate x g).Pairwise dLe := by
  induction g with
  | nil => simp [insertByDate, dLe]
  | cons y l ih =>
    rcases List.pairwise_cons.mp h with ⟨hy, hl⟩
    by_cases hle : y.2.date ≤ x.2.date
    · simp only [insertByDate, if_pos hle]
      refine List.pairwise_cons.mpr ⟨?_, ih hl⟩
      intro b hb
      rcases mem_insertByDate.mp hb with rfl | hbl
      · exact hle
      · exact hy b hbl
    · simp only [insertByDate, if_neg hle]
      have hxy : dLe x y := le_of_not_le hle
      refine List.pairwise_cons.mpr ⟨?_, h⟩
      intro b hb
      rcases List.mem_cons.mp hb with rfl | hbl
      · exact hxy
      · exact le_trans hxy (hy b hbl)

theorem sortByDate_sorted (g : Gallery) : (sortByDate g).Pairwise dLe := by
  suffices h : ∀ (l acc : Gallery), acc.Pairwise dLe →
      (l.foldl (fun a x => insertByDate x a) acc).Pairwise dLe by
    exact h g [] List.Pairwise.nil
  intro l
  induction l with
  | nil => intro acc hacc; simpa using hacc
  | cons x t ih => intro acc hacc; exact ih _ (pairwise_insertByDate hacc)

theorem pyTakeLast_sublist (n : Nat) (l : Gallery) : List.Sublist (pyTakeLast n l) l := by
  unfold pyTakeLast
  split
  · exact List.Sublist.refl l
  · exact List.drop_sublist _ l

theorem length_pyTakeLast (n : Nat) (l : Gallery) (hn : 1 ≤ n) :
    (pyTakeLast n l).length = min l.length n := by
  unfold pyTakeLast
  rw [if_neg (by omega), List.length_drop]
  omega

theorem pyTakeLast_eq_self (n : Nat) (l : Gallery) (h : l.length ≤ n) :
    pyTakeLast n l = l := by
  unfold pyTakeLast
  split
  · rfl
  · rw [show l.length - n = 0 by omega, List.drop_zero]

theorem dictInsert_any_iff (k : String) (g : Gallery) :
    (g.any (fun p => decide (p.1 = k)) = true) ↔ k ∈ g.map Prod.fst := by
  rw [List.any_eq_true]
  constructor
  · rintro ⟨p, hp, hdec⟩
    exact (of_decide_eq_true hdec) ▸ List.mem_map_of_mem Prod.fst hp
  · intro hk
    rcases List.mem_map.mp hk with ⟨p, hp, hpk⟩
    exact ⟨p, hp, decide_eq_true hpk⟩

theorem keys_map_replace (k : String) (v : ImgDesc) (g : Gallery) :
    (g.map (fun p => if p.1 = k then (k, v) else p)).map Prod.fst = g.map Prod.fst := by
  induction g with
  | nil => rfl
  | cons p t ih =>
    by_cases h : p.1 = k
    · simp [h, ih]
    · simp [h, ih]

theorem length_dictInsert_ge (k : String) (v : ImgDesc) (g : Gallery) :
    g.length ≤ (dictInsert k v g).length := by
  unfold dictInsert
  split <;> simp

theorem nodup_keys_dictInsert (k : String) (v : ImgDesc) {g : Gallery}
    (h : (g.map Prod.fst).Nodup) : ((dictInsert k v g).map Prod.fst).Nodup := by
  unfold dictInsert
  split
  · rw [keys_map_replace]
    exact h
  · rename_i hany
    have hk : k ∉ g.map Prod.fst := fun hmem => hany ((dictInsert_any_iff k g).mpr hmem)
    simp [List.nodup_append, h, hk]

theorem length_upsertBatch_ge (hash : String → String) (fetch : String → HttpResponse)
    (batch : List ImgDesc) : ∀ g : Gallery,
    g.length ≤ (upsertBatch hash fetch batch g).length := by
  induction batch with
  | nil => intro g; simp [upsertBatch]
  | cons d t ih =>
    intro g
    show g.length ≤ (upsertBatch hash fetch t
      (if is_url_valid fetch d.url then dictInsert (hash d.url) d g else g)).length
    by_cases hv : is_url_valid fetch d.url = true
    · rw [if_pos hv]
      exact le_trans (length_dictInsert_ge _ _ _) (ih _)
    · rw [if_neg hv]
      exact ih g

theorem nodup_keys_upsertBatch (hash : String → String) (fetch : String → HttpResponse)
    (batch : List ImgDesc) : ∀ {g : Gallery}, (g.map Prod.fst).Nodup →
    ((upsertBatch hash fetch batch g).map Prod.fst).Nodup := by
  induction batch with
  | nil => intro g h; simpa [upsertBatch] using h
  | cons d t ih =>
    intro g h
    show ((upsertBatch hash fetch t
      (if is_url_valid fetch d.url then dictInsert (hash d.url) d g else g)).map Prod.fst).Nodup
    by_cases hv : is_url_valid fetch d.url = true
    · rw [if_pos hv]
      exact ih (nodup_keys_dictInsert _ _ h)
    · rw [if_neg hv]
      exact ih h

theorem reachable_inv {hash : String → String} {N : Nat} {s : CamState}
    (h : Reachable hash N s) :
    s.urlIndex ≤ s.urls.length ∧ (0 < N → s.urls.length ≤ N) ∧
    s.urls.Pairwise dLe ∧ (s.urls.map Prod.fst).Nodup := by
  induction h with
  | init => simp
  | rotate hr ih =>
    rename_i s'
    rcases ih with ⟨h1, h2, h3, h4⟩
    by_cases h0 : s'.urls.length = 0
    · simp only [rotate_img, if_pos h0]
      exact ⟨h1, h2, h3, h4⟩
    · simp only [rotate_img, if_neg h0]
      exact ⟨le_of_lt (Nat.mod_lt _ (Nat.pos_of_ne_zero h0)), h2, h3, h4⟩
  | ingest fetch batch hr ih =>
    rename_i s'
    rcases ih with ⟨h1, h2, h3, h4⟩
    have hmg : s'.urls.length ≤ (upsertBatch hash fetch batch s'.urls).length :=
      length_upsertBatch_ge hash fetch batch s'.urls
    have hTot : (sortByDate (upsertBatch hash fetch batch s'.urls)).length =
        (upsertBatch hash fetch batch s'.urls).length :=
      (sortByDate_perm _).length_eq
    refine ⟨?_, ?_, ?_, ?_⟩
    · show s'.urlIndex ≤ (pyTakeLast N (sortByDate (upsertBatch hash fetch batch s'.urls))).length
      by_cases hN : N = 0
      · subst hN
        unfold pyTakeLast
        rw [if_pos rfl, hTot]
        omega
      · rw [length_pyTakeLast _ _ (by omega), hTot]
        have hle : s'.urls.length ≤ N := h2 (by omega)
        omega
    · intro hNpos
      show (pyTakeLast N (sortByDate (upsertBatch hash fetch batch s'.urls))).length ≤ N
      rw [length_pyTakeLast _ _ (by omega)]
      omega
    · exact List.Pairwise.sublist (pyTakeLast_sublist _ _) (sortByDate_sorted _)
    · have hndm : ((upsertBatch hash fetch batch s'.urls).map Prod.fst).Nodup :=
        nodup_keys_upsertBatch hash fetch batch h4
      have hnds : ((sortByDate (upsertBatch hash fetch batch s'.urls)).map Prod.fst).Nodup :=
        (((sortByDate_perm _).map Prod.fst).nodup_iff).mpr hndm
      exact List.Nodup.sublist ((pyTakeLast_sublist _ _).map Prod.fst) hnds

/-- C1: in every reachable state of the camera the rotation pointer
`_url_index` lies in `[0, size]` (it is a `Nat`, so only the upper bound is
stated), and ingestion — the only operation that re-sizes the gallery via
truncation — again leaves the pointer within `[0, size]` for the new size. -/
theorem rotation_pointer_in_range {hash : String → String} {N : Nat} {s : CamState}
    (h : Reachable hash N s) :
    s.urlIndex ≤ s.urls.length ∧
    ∀ (fetch : String → HttpResponse) (batch : List ImgDesc),
      (img_update_handler hash fetch N batch s).urlIndex ≤
        (img_update_handler hash fetch N batch s).urls.length :=
  ⟨(reachable_inv h).1, fun fetch batch => (reachable_inv (h.ingest fetch batch)).1⟩

theorem rotation_pointer_in_range_witness :
    (img_update_handler id fetchOk 2 [dA, dB, dC] ⟨[], 0⟩).urlIndex ≤
      (img_update_handler id fetchOk 2 [dA, dB, dC] ⟨[], 0⟩).urls.length ∧
    (img_update_handler id fetchOk 2 [dB]
        (img_update_handler id fetchOk 2 [dA, dB, dC] ⟨[], 0⟩)).urlIndex ≤
      (img_update_handler id fetchOk 2 [dB]
        (img_update_handler id fetchOk 2 [dA, dB, dC] ⟨[], 0⟩)).urls.length :=
  ⟨(rotation_pointer_in_range (Reachable.init.ingest fetchOk [dA, dB, dC])).1,
   (rotation_pointer_in_range (Reachable.init.ingest fetchOk [dA, dB, dC])).2 fetchOk [dB]⟩

/-- C2: a single `img_update_handler` call from any state leaves at most `N`
entries in the dict, for any positive configured maximum `N` (the configured
constant `CONF_MAX_NB_IMAGES` is 100); hence after each ingest call of any
sequence the gallery size is at most `N`. (Positivity matters: the Python
slice `[-0:]` would not truncate at all.) -/
theorem capacity_invariant (hash : String → String) (fetch : String → HttpResponse)
    (N : Nat) (hN : 1 ≤ N) (batch : List ImgDesc) (s : CamState) :
    (img_update_handler hash fetch N batch s).urls.length ≤ N := by
  show (pyTakeLast N (sortByDate (upsertBatch hash fetch batch s.urls))).length ≤ N
  rw [length_pyTakeLast _ _ hN]
  omega

theorem capacity_invariant_witness :
    1 ≤ CONF_MAX_NB_IMAGES ∧
    (img_update_handler id fetchOk CONF_MAX_NB_IMAGES [dA, dB, dC] ⟨[], 0⟩).urls.length ≤
      CONF_MAX_NB_IMAGES :=
  ⟨by decide, capacity_invariant id fetchOk CONF_MAX_NB_IMAGES (by decide) [dA, dB, dC] ⟨[], 0⟩⟩

/-- C3: in every state reachable by any sequence of ingest (and rotate) calls,
iterating the gallery dict yields pairwise non-decreasing `date` values. -/
theorem gallery_sorted_by_date {hash : String → String} {N : Nat} {s : CamState}
    (h : Reachable hash N s) : s.urls.Pairwise dLe :=
  (reachable_inv h).2.2.1

theorem gallery_sorted_by_date_witness :
    (img_update_handler id fetchOk 2 [dC, dA, dB] ⟨[], 0⟩).urls.Pairwise dLe :=
  gallery_sorted_by_date (Reachable.init.ingest fetchOk [dC, dA, dB])

/-- C4: `rotate_img` on an empty dict changes nothing and emits no
state-change notification; on a non-empty dict it sets the pointer to
`(pointer + 1) mod size`, keeps the dict, and notifies. -/
theorem rotate_img_spec (s : CamState) :
    (s.urls.length = 0 → rotate_img s = (s, false)) ∧
    (s.urls.length ≠ 0 →
      (rotate_img s).1.urlIndex = (s.urlIndex + 1) % s.urls.length ∧
      (rotate_img s).1.urls = s.urls ∧ (rotate_img s).2 = true) := by
  constructor
  · intro h
    simp [rotate_img, h]
  · intro h
    simp [rotate_img, h]

theorem rotate_img_spec_witness :
    (rotate_img ⟨g3, 2⟩).1.urlIndex = 0 ∧ (rotate_img ⟨g3, 2⟩).2 = true := by
  have h := (rotate_img_spec ⟨g3, 2⟩).2 (by decide)
  refine ⟨?_, h.2.2⟩
  rw [h.1]
  decide

/-- C10: `img_update_handler` never touches `_url_index`: for every prior
state, batch, oracle and maximum, the pointer after the call is exactly the
pointer before it. -/
theorem img_update_handler_preserves_index (hash : String → String)
    (fetch : String → HttpResponse) (N : Nat) (batch : List ImgDesc) (s : CamState) :
    (img_update_handler hash fetch N batch s).urlIndex = s.urlIndex := rfl

theorem dictGet_keyAt {g : Gallery} (hnd : (g.map Prod.fst).Nodup) :
    ∀ {i : Nat} {p : String × ImgDesc}, g.get? i = some p →
      keyAt g i = some p.1 ∧ dictGet g p.1 = some p.2 := by
  induction g with
  | nil =>
    intro i p h
    simp [List.get?] at h
  | cons q t ih =>
    intro i p h
    have hnd' : (q.1 :: t.map Prod.fst).Nodup := by simpa using hnd
    rcases List.nodup_cons.mp hnd' with ⟨hq, ht⟩
    cases i with
    | zero =>
      have hp : q = p := by simpa [List.get?] using h
      subst hp
      refine ⟨rfl, ?_⟩
      simp [dictGet, List.find?_cons_of_pos]
    | succ n =>
      have h' : t.get? n = some p := by simpa [List.get?] using h
      have hp := ih ht h'
      have hpm : p.1 ∈ t.map Prod.fst := List.mem_map_of_mem Prod.fst (List.get?_mem h')
      have hne : q.1 ≠ p.1 := fun he => hq (he ▸ hpm)
      refine ⟨by simpa [keyAt] using hp.1, ?_⟩
      have hfind : dictGet (q :: t) p.1 = dictGet t p.1 := by
        simp [dictGet, List.find?_cons_of_neg, hne]
      rw [hfind]
      exact hp.2

/-- C5: the sentinel read — in any state in which the pointer equals the dict
size, `state` and `extra_state_attributes` give the default URL, whatever the
dict holds; and in a reachable state with the pointer strictly inside the
dict, both give the `url` of the pointer-th entry of the dict, whose iteration
order is ascending by date. -/
theorem current_reference_spec :
    (∀ s : CamState, s.urlIndex = s.urls.length →
      camera_state s = some defaultUrl ∧ extra_state_attributes s = some defaultUrl) ∧
    (∀ {hash : String → String} {N : Nat} (s : CamState), Reachable hash N s →
      s.urlIndex < s.urls.length →
      s.urls.Pairwise dLe ∧
      camera_state s = (s.urls.get? s.urlIndex).map (fun q => q.2.url) ∧
      extra_state_attributes s = (s.urls.get? s.urlIndex).map (fun q => q.2.url)) := by
  constructor
  · intro s he
    constructor
    · simp [camera_state, he]
    · simp [extra_state_attributes, he]
  · intro hash N s h hlt
    have hne : s.urls.length ≠ s.urlIndex := by omega
    have hnd := (reachable_inv h).2.2.2
    refine ⟨(reachable_inv h).2.2.1, ?_⟩
    rcases hget : s.urls.get? s.urlIndex with _ | p
    · exact absurd (List.get?_eq_none.mp hget) (by omega)
    · obtain ⟨hk, hd⟩ := dictGet_keyAt hnd hget
      constructor
      · simp [camera_state, hne, hk, hd]
      · simp [extra_state_attributes, hne, hk, hd]

theorem current_reference_spec_witness :
    (camera_state ⟨g3, 3⟩ = some defaultUrl ∧
      extra_state_attributes ⟨g3, 3⟩ = some defaultUrl) ∧
    (sWit.urls.Pairwise dLe ∧
      camera_state sWit = (sWit.urls.get? sWit.urlIndex).map (fun q => q.2.url) ∧
      extra_state_attributes sWit = (sWit.urls.get? sWit.urlIndex).map (fun q => q.2.url)) :=
  ⟨current_reference_spec.1 ⟨g3, 3⟩ (by decide),
   current_reference_spec.2 sWit (Reachable.init.ingest fetchOk [dA, dB, dC]) (by decide)⟩

/-- C9: with the pointer inside `[0, size]` (the reachable-state invariant)
and dict keys distinct, `camera_image` always returns some bytes — it never
raises — and whenever the fetch of the current entry's URL has a non-200
status it returns the default image's bytes instead. -/
theorem camera_image_total_and_fallback (fetch : String → HttpResponse) (s : CamState)
    (hle : s.urlIndex ≤ s.urls.length) (hnd : (s.urls.map Prod.fst).Nodup) :
    (∃ b, camera_image fetch s = some b) ∧
    (∀ p : String × ImgDesc, s.urls.get? s.urlIndex = some p →
      (fetch p.2.url).statusCode ≠ 200 →
      camera_image fetch s = some (return_default_img fetch)) := by
  by_cases he : s.urls.length = s.urlIndex
  · constructor
    · exact ⟨return_default_img fetch, by simp [camera_image, he]⟩
    · intro p hp hst
      have hnone : s.urls.get? s.urlIndex = none := List.get?_eq_none.mpr (by omega)
      rw [hnone] at hp
      exact Option.noConfusion hp
  · have hlt : s.urlIndex < s.urls.length := by omega
    rcases hget : s.urls.get? s.urlIndex with _ | p₀
    · exact absurd (List.get?_eq_none.mp hget) (by omega)
    · obtain ⟨hk, hd⟩ := dictGet_keyAt hnd hget
      constructor
      · by_cases hst : (fetch p₀.2.url).statusCode = 200
        · exact ⟨(fetch p₀.2.url).content, by simp [camera_image, he, hk, hd, hst]⟩
        · exact ⟨return_default_img fetch, by simp [camera_image, he, hk, hd, hst]⟩
      · intro p hp hst
        cases hp
        simp [camera_image, he, hk, hd, hst]

theorem camera_image_total_and_fallback_witness :
    camera_image fetch404 sWit = some (return_default_img fetch404) :=
  (camera_image_total_and_fallback fetch404 sWit (by decide) (by decide)).2
    ("b", dB) (by decide) (by decide)

theorem pyTakeLast_eq_drop (n : Nat) (l : Gallery) :
    pyTakeLast n l = l.drop (if n = 0 then 0 else l.length - n) := by
  unfold pyTakeLast
  by_cases h : n = 0
  · simp [h]
  · simp [h]

theorem sorted_drop_cross {l : Gallery} (hs : l.Pairwise dLe) (k : Nat) :
    ∀ x ∈ l, x ∉ l.drop k → ∀ y ∈ l.drop k, x.2.date ≤ y.2.date := by
  intro x hx hxd y hy
  have hsplit : l.take k ++ l.drop k = l := List.take_append_drop k l
  have hs2 : (l.take k ++ l.drop k).Pairwise dLe := by rw [hsplit]; exact hs
  have hxtake : x ∈ l.take k := by
    have hx2 : x ∈ l.take k ++ l.drop k := by rw [hsplit]; exact hx
    rcases List.mem_append.mp hx2 with h | h
    · exact h
    · exact absurd h hxd
  exact (List.pairwise_append.mp hs2).2.2 x hxtake y hy

/-- C7: after `img_update_handler`, the gallery is a final segment of the
stable date-sort of the upserted union of old and accepted new entries; for a
positive maximum its length is the smaller of the union size and `N`; and
every union entry that was dropped has a date less than or equal to every
retained entry's date (the oldest are evicted first). -/
theorem eviction_oldest_first (hash : String → String) (fetch : String → HttpResponse)
    (N : Nat) (batch : List ImgDesc) (s : CamState) :
    (∃ k, (sortByDate (upsertBatch hash fetch batch s.urls)).drop k =
        (img_update_handler hash fetch N batch s).urls) ∧
    (1 ≤ N → (img_update_handler hash fetch N batch s).urls.length =
        min (upsertBatch hash fetch batch s.urls).length N) ∧
    (∀ x ∈ upsertBatch hash fetch batch s.urls,
      x ∉ (img_update_handler hash fetch N batch s).urls →
      ∀ y ∈ (img_update_handler hash fetch N batch s).urls, x.2.date ≤ y.2.date) := by
  refine ⟨?_, ?_, ?_⟩
  · exact ⟨if N = 0 then 0 else (sortByDate (upsertBatch hash fetch batch s.urls)).length - N,
      (pyTakeLast_eq_drop N _).symm⟩
  · intro hN
    show (pyTakeLast N (sortByDate (upsertBatch hash fetch batch s.urls))).length = _
    rw [length_pyTakeLast _ _ hN, (sortByDate_perm _).length_eq]
  · intro x hxm hxout y hyout
    have hout : (img_update_handler hash fetch N batch s).urls =
        (sortByDate (upsertBatch hash fetch batch s.urls)).drop
          (if N = 0 then 0 else (sortByDate (upsertBatch hash fetch batch s.urls)).length - N) :=
      pyTakeLast_eq_drop N _
    rw [hout] at hxout hyout
    exact sorted_drop_cross (sortByDate_sorted _) _ x
      (((sortByDate_perm _).mem_iff).mpr hxm) hxout y hyout

theorem eviction_oldest_first_witness :
    (img_update_handler id fetchOk 2 [dA, dB, dC] (CamState.mk [] 0)).urls =
      [("b", dB), ("c", dC)] ∧
    (1 ≤ 2 → (img_update_handler id fetchOk 2 [dA, dB, dC] (CamState.mk [] 0)).urls.length =
      min (upsertBatch id fetchOk [dA, dB, dC] (CamState.mk [] 0).urls).length 2) :=
  ⟨by decide, (eviction_oldest_first id fetchOk 2 [dA, dB, dC] (CamState.mk [] 0)).2.1⟩

theorem keyCount_cons (q : String × ImgDesc) (t : Gallery) (k : String) :
    keyCount (q :: t) k = (if q.1 = k then 1 else 0) + keyCount t k := by
  by_cases h : q.1 = k
  · simp [keyCount, List.filter_cons, h]
    omega
  · simp [keyCount, List.filter_cons, h]

theorem keyCount_append (g1 g2 : Gallery) (k : String) :
    keyCount (g1 ++ g2) k = keyCount g1 k + keyCount g2 k := by
  unfold keyCount
  rw [List.filter_append, List.length_append]

theorem keyCount_singleton (k : String) (v : ImgDesc) : keyCount [(k, v)] k = 1 := by
  simp [keyCount]

theorem keyCount_eq_zero_of_not_mem {g : Gallery} {k : String}
    (h : k ∉ g.map Prod.fst) : keyCount g k = 0 := by
  unfold keyCount
  rw [List.length_eq_zero, List.filter_eq_nil_iff]
  intro p hp hdec
  exact h ((of_decide_eq_true hdec) ▸ List.mem_map_of_mem Prod.fst hp)

theorem keyCount_pos_of_mem {g : Gallery} {k : String}
    (h : k ∈ g.map Prod.fst) : 1 ≤ keyCount g k := by
  rcases List.mem_map.mp h with ⟨p, hp, hpk⟩
  exact List.length_pos_of_mem (List.mem_filter.mpr ⟨hp, decide_eq_true hpk⟩)

theorem mem_keys_of_keyCount_pos {g : Gallery} {k : String}
    (h : 1 ≤ keyCount g k) : k ∈ g.map Prod.fst := by
  unfold keyCount at h
  have hne : g.filter (fun p => decide (p.1 = k)) ≠ [] := by
    intro he
    rw [he] at h
    simp at h
  rcases List.exists_mem_of_ne_nil _ hne with ⟨p, hp⟩
  have hm := List.mem_filter.mp hp
  exact (of_decide_eq_true hm.2) ▸ List.mem_map_of_mem Prod.fst hm.1

theorem keyCount_le_one_of_nodup (k : String) {g : Gallery}
    (h : (g.map Prod.fst).Nodup) : keyCount g k ≤ 1 := by
  induction g with
  | nil => simp [keyCount]
  | cons q t ih =>
    have hnd : (q.1 :: t.map Prod.fst).Nodup := by simpa using h
    rcases List.nodup_cons.mp hnd with ⟨hq, ht⟩
    rw [keyCount_cons]
    by_cases hqk : q.1 = k
    · rw [if_pos hqk]
      have h0 : keyCount t k = 0 := keyCount_eq_zero_of_not_mem (hqk ▸ hq)
      omega
    · rw [if_neg hqk]
      have := ih ht
      omega

theorem keyCount_map_replace (k : String) (v : ImgDesc) (g : Gallery) :
    keyCount (g.map (fun p => if p.1 = k then (k, v) else p)) k = keyCount g k := by
  induction g with
  | nil => rfl
  | cons q t ih =>
    by_cases h : q.1 = k <;> simp [List.map_cons, keyCount_cons, h, ih]

theorem keyCount_perm {g1 g2 : Gallery} (h : List.Perm g1 g2) (k : String) :
    keyCount g1 k = keyCount g2 k :=
  (h.filter _).length_eq

theorem keyCount_dictInsert_self (k : String) (v : ImgDesc) {g : Gallery}
    (hle : keyCount g k ≤ 1) : keyCount (dictInsert k v g) k = 1 := by
  unfold dictInsert
  split
  · rename_i hany
    rw [keyCount_map_replace]
    have hpos : 1 ≤ keyCount g k := keyCount_pos_of_mem ((dictInsert_any_iff k g).mp hany)
    omega
  · rename_i hany
    have h0 : keyCount g k = 0 :=
      keyCount_eq_zero_of_not_mem (fun hm => hany ((dictInsert_any_iff k g).mpr hm))
    rw [keyCount_append, h0, keyCount_singleton]

theorem mem_dictInsert_self (k : String) (v : ImgDesc) (g : Gallery) :
    (k, v) ∈ dictInsert k v g := by
  unfold dictInsert
  split
  · rename_i hany
    rcases List.any_eq_true.mp hany with ⟨p, hp, hdec⟩
    have hpk : p.1 = k := of_decide_eq_true hdec
    exact List.mem_map.mpr ⟨p, hp, by simp [hpk]⟩
  · exact List.mem_append.mpr (Or.inr (List.mem_singleton.mpr rfl))

theorem length_dictInsert_of_mem (k : String) (v : ImgDesc) {g : Gallery}
    (h : k ∈ g.map Prod.fst) : (dictInsert k v g).length = g.length := by
  unfold dictInsert
  rw [if_pos ((dictInsert_any_iff k g).mpr h), List.length_map]

theorem length_dictInsert_le (k : String) (v : ImgDesc) (g : Gallery) :
    (dictInsert k v g).length ≤ g.length + 1 := by
  unfold dictInsert
  split <;> simp

set_option maxRecDepth 400000 in
/-- C6 fails on the code: with the configured maximum (100) and a gallery
already full of 100 strictly newer entries, ingesting the same URL twice
(both validated) leaves zero entries for that URL — both copies are evicted
by the truncation step — not exactly one. -/
theorem idempotent_reingestion_counterexample :
    keyCount (img_update_handler id fetchOk CONF_MAX_NB_IMAGES [dA2]
      (img_update_handler id fetchOk CONF_MAX_NB_IMAGES [dA] sFull)).urls (id dA2.url) ≠ 1 := by
  decide

/-- C6 (amended): ingestion is idempotent per URL as long as the entry
survives truncation — from any state with distinct keys and fewer than `N`
entries, ingesting a descriptor with the same URL twice (both validated)
yields exactly one entry keyed by the hash of that URL, holding the second
ingestion's descriptor. -/
theorem idempotent_reingestion_amended (hash : String → String)
    (fetch : String → HttpResponse) (N : Nat) (s : CamState) (d1 d2 : ImgDesc)
    (hurl : d1.url = d2.url) (hnd : (s.urls.map Prod.fst).Nodup)
    (hsz : s.urls.length < N) (hv : is_url_valid fetch d2.url = true) :
    keyCount (img_update_handler hash fetch N [d2]
      (img_update_handler hash fetch N [d1] s)).urls (hash d2.url) = 1 ∧
    (hash d2.url, d2) ∈ (img_update_handler hash fetch N [d2]
      (img_update_handler hash fetch N [d1] s)).urls := by
  have hv1 : is_url_valid fetch d1.url = true := by rw [hurl]; exact hv
  have hm1 : upsertBatch hash fetch [d1] s.urls = dictInsert (hash d1.url) d1 s.urls := by
    simp [upsertBatch, hv1]
  have hlen1 : (dictInsert (hash d1.url) d1 s.urls).length ≤ N :=
    le_trans (length_dictInsert_le _ _ _) (by omega)
  have hout1 : (img_update_handler hash fetch N [d1] s).urls =
      sortByDate (dictInsert (hash d1.url) d1 s.urls) := by
    show pyTakeLast N (sortByDate (upsertBatch hash fetch [d1] s.urls)) = _
    rw [hm1]
    exact pyTakeLast_eq_self _ _ (by rw [(sortByDate_perm _).length_eq]; exact hlen1)
  have hkc1 : keyCount (img_update_handler hash fetch N [d1] s).urls (hash d2.url) = 1 := by
    rw [hout1, keyCount_perm (sortByDate_perm _) _, ← hurl]
    exact keyCount_dictInsert_self _ _ (keyCount_le_one_of_nodup _ hnd)
  have hnd1 : ((img_update_handler hash fetch N [d1] s).urls.map Prod.fst).Nodup := by
    rw [hout1]
    exact (((sortByDate_perm _).map Prod.fst).nodup_iff).mpr (nodup_keys_dictInsert _ _ hnd)
  have hlen1g : (img_update_handler hash fetch N [d1] s).urls.length ≤ N := by
    rw [hout1, (sortByDate_perm _).length_eq]
    exact hlen1
  have hk1 : hash d2.url ∈ (img_update_handler hash fetch N [d1] s).urls.map Prod.fst :=
    mem_keys_of_keyCount_pos (by omega)
  have hm2 : upsertBatch hash fetch [d2] (img_update_handler hash fetch N [d1] s).urls =
      dictInsert (hash d2.url) d2 (img_update_handler hash fetch N [d1] s).urls := by
    simp [upsertBatch, hv]
  have hlen2 : (dictInsert (hash d2.url) d2
      (img_update_handler hash fetch N [d1] s).urls).length ≤ N := by
    rw [length_dictInsert_of_mem _ _ hk1]
    exact hlen1g
  have hout2 : (img_update_handler hash fetch N [d2]
      (img_update_handler hash fetch N [d1] s)).urls =
      sortByDate (dictInsert (hash d2.url) d2 (img_update_handler hash fetch N [d1] s).urls) := by
    show pyTakeLast N (sortByDate (upsertBatch hash fetch [d2]
      (img_update_handler hash fetch N [d1] s).urls)) = _
    rw [hm2]
    exact pyTakeLast_eq_self _ _ (by rw [(sortByDate_perm _).length_eq]; exact hlen2)
  constructor
  · rw [hout2, keyCount_perm (sortByDate_perm _) _]
    exact keyCount_dictInsert_self _ _ (by omega)
  · rw [hout2]
    exact ((sortByDate_perm _).mem_iff).mpr (mem_dictInsert_self _ _ _)

theorem idempotent_reingestion_amended_witness :
    keyCount (img_update_handler id fetchOk 2 [dA2]
      (img_update_handler id fetchOk 2 [dA] (CamState.mk [] 0))).urls (id dA2.url) = 1 ∧
    (id dA2.url, dA2) ∈ (img_update_handler id fetchOk 2 [dA2]
      (img_update_handler id fetchOk 2 [dA] (CamState.mk [] 0))).urls :=
  idempotent_reingestion_amended id fetchOk 2 (CamState.mk [] 0) dA dA2
    (by decide) (by decide) (by decide) (by decide)

theorem keys_dictInsert_subset {k : String} {v : ImgDesc} {g : Gallery} :
    ∀ {a : String}, a ∈ (dictInsert k v g).map Prod.fst →
      a = k ∨ a ∈ g.map Prod.fst := by
  intro a ha
  unfold dictInsert at ha
  split at ha
  · rw [keys_map_replace] at ha
    exact Or.inr ha
  · rw [List.map_append] at ha
    rcases List.mem_append.mp ha with h | h
    · exact Or.inr h
    · simp at h
      exact Or.inl h

theorem mem_keys_dictInsert_mono (k : String) (v : ImgDesc) {g : Gallery} {a : String}
    (h : a ∈ g.map Prod.fst) : a ∈ (dictInsert k v g).map Prod.fst := by
  unfold dictInsert
  split
  · rw [keys_map_replace]
    exact h
  · rw [List.map_append]
    exact List.mem_append_left _ h

theorem mem_keys_dictInsert_self (k : String) (v : ImgDesc) (g : Gallery) :
    k ∈ (dictInsert k v g).map Prod.fst :=
  List.mem_map_of_mem Prod.fst (mem_dictInsert_self k v g)

theorem mem_keys_upsertBatch_elim (hash : String → String) (fetch : String → HttpResponse)
    (batch : List ImgDesc) : ∀ {g : Gallery} {a : String},
    a ∈ (upsertBatch hash fetch batch g).map Prod.fst →
    a ∈ g.map Prod.fst ∨ ∃ d ∈ batch, is_url_valid fetch d.url = true ∧ a = hash d.url := by
  induction batch with
  | nil =>
    intro g a h
    exact Or.inl (by simpa [upsertBatch] using h)
  | cons d t ih =>
    intro g a h
    have h' : a ∈ (upsertBatch hash fetch t
        (if is_url_valid fetch d.url then dictInsert (hash d.url) d g else g)).map Prod.fst := h
    rcases ih h' with hg | ⟨d', hd', hv', he⟩
    · by_cases hv : is_url_valid fetch d.url = true
      · rw [if_pos hv] at hg
        rcases keys_dictInsert_subset hg with rfl | hgg
        · exact Or.inr ⟨d, List.mem_cons_self d t, hv, rfl⟩
        · exact Or.inl hgg
      · rw [if_neg hv] at hg
        exact Or.inl hg
    · exact Or.inr ⟨d', List.mem_cons_of_mem d hd', hv', he⟩

theorem mem_keys_upsertBatch_mono (hash : String → String) (fetch : String → HttpResponse)
    (batch : List ImgDesc) : ∀ {g : Gallery} {a : String}, a ∈ g.map Prod.fst →
    a ∈ (upsertBatch hash fetch batch g).map Prod.fst := by
  induction batch with
  | nil =>
    intro g a h
    simpa [upsertBatch] using h
  | cons d t ih =>
    intro g a h
    show a ∈ (upsertBatch hash fetch t
      (if is_url_valid fetch d.url then dictInsert (hash d.url) d g else g)).map Prod.fst
    by_cases hv : is_url_valid fetch d.url = true
    · rw [if_pos hv]
      exact ih (mem_keys_dictInsert_mono _ _ h)
    · rw [if_neg hv]
      exact ih h

theorem mem_keys_upsertBatch_of_valid (hash : String → String) (fetch : String → HttpResponse)
    (batch : List ImgDesc) : ∀ {d : ImgDesc}, d ∈ batch →
    is_url_valid fetch d.url = true →
    ∀ g : Gallery, hash d.url ∈ (upsertBatch hash fetch batch g).map Prod.fst := by
  induction batch with
  | nil =>
    intro d hd
    cases hd
  | cons d0 t ih =>
    intro d hd hv g
    show hash d.url ∈ (upsertBatch hash fetch t
      (if is_url_valid fetch d0.url then dictInsert (hash d0.url) d0 g else g)).map Prod.fst
    rcases List.mem_cons.mp hd with he | hdt
    · rw [he] at hv ⊢
      rw [if_pos hv]
      exact mem_keys_upsertBatch_mono hash fetch t (mem_keys_dictInsert_self _ _ _)
    · exact ih hdt hv _

set_option maxRecDepth 400000 in
/-- C8 fails on the code as universally stated: with the configured maximum
(100) and a batch of 101 distinct valid descriptors, the descriptor with the
oldest date passes validation yet is absent from the resulting gallery,
because the truncation step evicts it. -/
theorem partial_failure_counterexample :
    ¬ (∀ d ∈ batch101, is_url_valid fetchOk d.url = true →
      (id d.url) ∈ (img_update_handler id fetchOk CONF_MAX_NB_IMAGES batch101
        (CamState.mk [] 0)).urls.map Prod.fst) := by
  intro hall
  have h := hall ⟨String.append "u" (toString 0), 0, ""⟩ (by decide) (by decide)
  exact absurd h (by decide)

/-- C8 (amended): ingestion tolerates partial failure — it is a total
function, a URL whose validation fails (non-200) and whose key is not already
present is excluded from the gallery, and every descriptor that validates is
upserted and still present whenever the upserted union fits within the
configured maximum (otherwise only the most recent `N` survive). -/
theorem partial_failure_ingestion_amended (hash : String → String)
    (fetch : String → HttpResponse) (N : Nat) (batch : List ImgDesc) (s : CamState)
    (hinj : Function.Injective hash) :
    (∀ u : String, (fetch u).statusCode ≠ 200 → hash u ∉ s.urls.map Prod.fst →
      hash u ∉ (img_update_handler hash fetch N batch s).urls.map Prod.fst) ∧
    (∀ d ∈ batch, is_url_valid fetch d.url = true →
      (upsertBatch hash fetch batch s.urls).length ≤ N →
      hash d.url ∈ (img_update_handler hash fetch N batch s).urls.map Prod.fst) := by
  constructor
  · intro u hfail hnotin hmem
    have hsub : List.Sublist ((img_update_handler hash fetch N batch s).urls.map Prod.fst)
        ((sortByDate (upsertBatch hash fetch batch s.urls)).map Prod.fst) :=
      (pyTakeLast_sublist _ _).map Prod.fst
    have hmem2 : hash u ∈ (sortByDate (upsertBatch hash fetch batch s.urls)).map Prod.fst :=
      hsub.subset hmem
    have hmem3 : hash u ∈ (upsertBatch hash fetch batch s.urls).map Prod.fst :=
      (((sortByDate_perm _).map Prod.fst).mem_iff).mp hmem2
    rcases mem_keys_upsertBatch_elim hash fetch batch hmem3 with hg | ⟨d, hd, hv, he⟩
    · exact hnotin hg
    · have hud : u = d.url := hinj he
      rw [hud] at hfail
      exact hfail (of_decide_eq_true hv)
  · intro d hd hv hlen
    have hout : (img_update_handler hash fetch N batch s).urls =
        sortByDate (upsertBatch hash fetch batch s.urls) := by
      show pyTakeLast N (sortByDate (upsertBatch hash fetch batch s.urls)) = _
      exact pyTakeLast_eq_self _ _ (by rw [(sortByDate_perm _).length_eq]; exact hlen)
    rw [hout]
    exact (((sortByDate_perm _).map Prod.fst).mem_iff).mpr
      (mem_keys_upsertBatch_of_valid hash fetch batch hd hv s.urls)

theorem partial_failure_ingestion_amended_witness :
    ((id "bad") ∉ (img_update_handler id fetchBadA CONF_MAX_NB_IMAGES [dA, dBad, dB]
      (CamState.mk [] 0)).urls.map Prod.fst) ∧
    ((id dA.url) ∈ (img_update_handler id fetchBadA CONF_MAX_NB_IMAGES [dA, dBad, dB]
      (CamState.mk [] 0)).urls.map Prod.fst) :=
  ⟨(partial_failure_ingestion_amended id fetchBadA CONF_MAX_NB_IMAGES [dA, dBad, dB]
      (CamState.mk [] 0) Function.injective_id).1 "bad" (by decide) (by decide),
   (partial_failure_ingestion_amended id fetchBadA CONF_MAX_NB_IMAGES [dA, dBad, dB]
      (CamState.mk [] 0) Function.injective_id).2 dA (by decide) (by decide) (by decide)⟩

end HaStrava
